import Mathlib

set_option maxRecDepth 8000

/-!
Verification of `src/examples/3coloring-asp.ipynb`.

The notebook assembles an ASP (answer set programming) program text for the
3-coloring problem of a fixed 4-vertex graph, hands it to the clingo solver,
prints each model found by the solver, and prints a satisfiability verdict.

The notebook's own code (the program text assembly, the solver call sequence
and the verdict branch) is embedded directly.  The clingo solver itself is an
external library whose code is not in the repository; its stable-model
semantics is modelled from the spec's glossary (grounding, reduct, minimal
model, integrity constraints) over the concrete grounded program.
-/

namespace ThreeCol

/-! ### Definitions -/

/-- Vertices of the fixed example graph of the notebook: `v1 .. v4`. -/
inductive V where
| v1
| v2
| v3
| v4
deriving DecidableEq, Fintype

/-- Ground atoms of the grounded ASP program: the vertex facts `vertex(v)`,
the edge facts `edge(a,b)` and the coloring atoms `color(v,c)` with a
numeric color argument, exactly the predicates occurring in `asp_code`. -/
inductive GAtom where
| vertex (v : V)
| edge (a b : V)
| color (v : V) (c : Nat)
deriving DecidableEq

/-- A ground ASP rule: an optional head (`none` for an integrity
constraint, i.e. an empty-headed rule), positive body atoms, and
default-negated body atoms (`not a`). -/
structure Rule where
  head : Option GAtom
  pos : List GAtom
  neg : List GAtom
deriving DecidableEq

/-- The vertex constants of the fact fragment of `asp_code`. -/
def vertices : List V := [V.v1, V.v2, V.v3, V.v4]

/-- The edge pairs of the fact fragment of `asp_code`:
`edge(v1,v2). edge(v1,v3). edge(v2,v3). edge(v2,v4). edge(v3,v4).` -/
def edges : List (V × V) :=
  [(V.v1, V.v2), (V.v1, V.v3), (V.v2, V.v3), (V.v2, V.v4), (V.v3, V.v4)]

/-- The color constants `1, 2, 3` occurring in the guess fragment. -/
def colors : List Nat := [1, 2, 3]

/-- The ground rule for a fact `vertex(v).` of the fact fragment. -/
def factVRule (v : V) : Rule := ⟨some (GAtom.vertex v), [], []⟩

/-- The ground rule for a fact `edge(a,b).` of the fact fragment. -/
def factERule (e : V × V) : Rule := ⟨some (GAtom.edge e.1 e.2), [], []⟩

/-- A ground instance of the guess fragment's rule for color `c`:
`color(V,c) :- vertex(V), not color(V,c'), not color(V,c'').`
where `c', c''` are the two colors other than `c`, in the order they
appear in the rule text. -/
def guessRule (v : V) (c : Nat) : Rule :=
  ⟨some (GAtom.color v c), [GAtom.vertex v],
    (colors.filter (fun c' => c' != c)).map (GAtom.color v)⟩

/-- A ground instance of the check fragment's integrity constraint
`:- edge(V1,V2), color(V1,C), color(V2,C).` -/
def checkRule (a b : V) (c : Nat) : Rule :=
  ⟨none, [GAtom.edge a b, GAtom.color a c, GAtom.color b c], []⟩

/-- The grounded fact fragment: one fact per vertex and per edge. -/
def factRules : List Rule :=
  vertices.map factVRule ++ edges.map factERule

/-- The grounded guess fragment: one rule instance per vertex and color.
Modelled from the spec: grounding instantiates the rule variable `V` over
the vertex constants (instances over other constants have an unsatisfiable
positive body `vertex(V)` and are dropped by the grounder). -/
def guessRules : List Rule :=
  vertices.flatMap (fun v => colors.map (fun c => guessRule v c))

/-- The grounded check fragment: one constraint instance per ordered pair
of vertices and color.  Modelled from the spec: grounding instantiates
`V1, V2` over the vertex constants and `C` over the color constants; the
positive body atom `edge(V1,V2)` makes non-edge instances vacuous. -/
def checkRules : List Rule :=
  vertices.flatMap (fun a => vertices.flatMap (fun b =>
    colors.map (fun c => checkRule a b c)))

/-- The grounded program assembled by the notebook (the `#show` directive
only restricts output and contributes no rule). -/
def program : List Rule := factRules ++ guessRules ++ checkRules

/-- The grounded program with the check fragment omitted (fact, guess and
projection fragments kept), as in the spec's negative scenario. -/
def programNoCheck : List Rule := factRules ++ guessRules

/-- Modelled from the spec: one application of the immediate-consequence
operator of the Gelfond–Lifschitz reduct of `P` with respect to the
candidate interpretation `I`: add the head of every rule whose positive
body holds in `S` and none of whose default-negated atoms is in `I`.
Integrity constraints (`head = none`) derive nothing. -/
def stepR (P : List Rule) (I S : Finset GAtom) : Finset GAtom :=
  S ∪ (P.filterMap (fun r =>
    if r.pos.all (fun b => decide (b ∈ S)) &&
        r.neg.all (fun b => !decide (b ∈ I)) then r.head else none)).toFinset

/-- Iterate the reduct's immediate-consequence operator from the empty set. -/
def iterR (P : List Rule) (I : Finset GAtom) : Nat → Finset GAtom
| 0 => ∅
| n + 1 => stepR P I (iterR P I n)

/-- Modelled from the spec: the minimal model of the reduct of `P` with
respect to `I`, computed as the closure of the immediate-consequence
operator.  The grounded program has 32 ground atoms, so 32 iterations of
the inflationary operator reach the least fixed point. -/
def closureR (P : List Rule) (I : Finset GAtom) : Finset GAtom := iterR P I 32

/-- Interpretation `I` respects the rule `r` when, if `r` is an integrity constraint,
its body does not hold in `I`. -/
def constraintOK (I : Finset GAtom) (r : Rule) : Prop :=
  r.head = none → ¬((∀ b ∈ r.pos, b ∈ I) ∧ ∀ b ∈ r.neg, b ∉ I)

instance (I : Finset GAtom) (r : Rule) : Decidable (constraintOK I r) := by
  unfold constraintOK; infer_instance

/-- Modelled from the spec: `I` is a stable model (answer set) of `P` when
`I` is the minimal model of the reduct of `P` with respect to `I` and `I`
violates no integrity constraint of `P`. -/
def isStable (P : List Rule) (I : Finset GAtom) : Prop :=
  I = closureR P I ∧ ∀ r ∈ P, constraintOK I r

instance (P : List Rule) (I : Finset GAtom) : Decidable (isStable P I) := by
  unfold isStable; infer_instance

/-- A 3-coloring of the vertices; the value `i : Fin 3` stands for the
color constant `i + 1` of the program text. -/
abbrev Coloring := V → Fin 3

/-- The numeric color constant denoted by a `Fin 3` color value. -/
def colorVal (c : Fin 3) : Nat := c.val + 1

/-- A coloring is proper when the two endpoints of every edge get
different colors. -/
def proper (μ : Coloring) : Prop := ∀ e ∈ edges, μ e.1 ≠ μ e.2

instance (μ : Coloring) : Decidable (proper μ) := by
  unfold proper; infer_instance

/-- The atoms contributed by the fact fragment. -/
def factAtoms : Finset GAtom :=
  (vertices.map GAtom.vertex).toFinset ∪
    (edges.map (fun e => GAtom.edge e.1 e.2)).toFinset

/-- The interpretation induced by a coloring: all the facts, plus
`color(v, μ v)` for every vertex `v`. -/
def interpOf (μ : Coloring) : Finset GAtom :=
  factAtoms ∪ (vertices.map (fun v => GAtom.color v (colorVal (μ v)))).toFinset

/-- Whether an atom is a `color/2` atom, the predicate selected by the
`#show color/2.` directive. -/
def isColorAtom : GAtom → Bool
| GAtom.color _ _ => true
| _ => false

/-- The shown part of a model: the atoms of the `#show`n predicate
`color/2`, as printed by the `on_model` callback via
`model.symbols(shown=True)`. -/
def shown (I : Finset GAtom) : Finset GAtom :=
  I.filter (fun a => isColorAtom a = true)

/-- Whether the guess rule for vertex `v` and color `c` survives the
reduct with respect to `I`: none of its default-negated atoms
(`color(v,c')` for the other colors `c'`) is in `I`. -/
def survives (I : Finset GAtom) (v : V) (c : Nat) : Bool :=
  (colors.filter (fun c' => c' != c)).all
    (fun c' => !decide (GAtom.color v c' ∈ I))

/-- The color atoms derived by the guess rules surviving the reduct
with respect to `I`. -/
def survColors (I : Finset GAtom) : Finset GAtom :=
  (vertices.flatMap (fun v =>
    (colors.filter (fun c => survives I v c)).map (GAtom.color v))).toFinset

/-- Program `P` consists of the fact and guess fragments, plus (possibly) integrity
constraints: this covers both the full program and the check-free one. -/
def NotebookShaped (P : List Rule) : Prop :=
  (∀ r ∈ factRules, r ∈ P) ∧ (∀ r ∈ guessRules, r ∈ P) ∧
    ∀ r ∈ P, r ∈ factRules ∨ r ∈ guessRules ∨ r.head = none

/-- The coloring read off a stable model: the unique color of each vertex. -/
def coloringOf (I : Finset GAtom) : Coloring := fun v =>
  if GAtom.color v 1 ∈ I then 0 else if GAtom.color v 2 ∈ I then 1 else 2

/-- A coloring given by its values on `v1, v2, v3, v4`. -/
def mkColoring (a b c d : Fin 3) : Coloring := fun v =>
  match v with
  | V.v1 => a
  | V.v2 => b
  | V.v3 => c
  | V.v4 => d

/-- The six proper 3-colorings of the example graph: the permutations of
the three colors over the triangle `v1, v2, v3`, with `v4` copying `v1`. -/
def properColorings : List Coloring :=
  [mkColoring 0 1 2 0, mkColoring 0 2 1 0, mkColoring 1 0 2 1,
    mkColoring 1 2 0 1, mkColoring 2 0 1 2, mkColoring 2 1 0 2]

/-- The list of the six stable models of the assembled program. -/
def stableList : List (Finset GAtom) := properColorings.map interpOf

/-- The fact fragment appended to `asp_code` in the second code cell. -/
def factFragment : String :=
  "\n    vertex(v1).\n    vertex(v2).\n    vertex(v3).\n    vertex(v4).\n    edge(v1,v2).\n    edge(v1,v3).\n    edge(v2,v3).\n    edge(v2,v4).\n    edge(v3,v4).\n"

/-- The guess fragment appended to `asp_code` in the third code cell. -/
def guessFragment : String :=
  "\n    color(V,1) :- vertex(V), not color(V,2), not color(V,3).\n    color(V,2) :- vertex(V), not color(V,1), not color(V,3).\n    color(V,3) :- vertex(V), not color(V,1), not color(V,2).\n"

/-- The check fragment appended to `asp_code` in the fourth code cell. -/
def checkFragment : String :=
  "\n    :- edge(V1,V2), color(V1,C), color(V2,C).\n"

/-- The projection fragment appended to `asp_code` in the fifth code cell. -/
def showFragment : String :=
  "\n    #show color/2.\n"

/-- The successive values of the `asp_code` variable. -/
def aspCode0 : String := ""

def aspCode1 : String := aspCode0 ++ factFragment

def aspCode2 : String := aspCode1 ++ guessFragment

def aspCode3 : String := aspCode2 ++ checkFragment

/-- The final value of `asp_code`, handed to `control.add`. -/
def aspCodeFinal : String := aspCode3 ++ showFragment

/-- Number of occurrences of the pattern in a character list. -/
def countOccur (pat : List Char) : List Char → Nat
| [] => 0
| c :: rest =>
  (if pat.isPrefixOf (c :: rest) then 1 else 0) + countOccur pat rest

/-- Number of occurrences of the pattern string in a string. -/
def occurrences (pat s : String) : Nat := countOccur pat.toList s.toList

/-- The clingo API calls made by the notebook after assembling `asp_code`. -/
inductive ClingoCall where
| add (part : String) (params : List String) (text : String)
| ground (parts : List (String × List String))
| setModels (n : Nat)
| solve
deriving DecidableEq

/-- Whether a call is a grounding call. -/
def isGroundCall : ClingoCall → Bool
| ClingoCall.ground _ => true
| _ => false

/-- The sequence of clingo API calls of the final code cell, in program
order: `control.add("base", [], asp_code)`,
`control.ground([("base", [])])`,
`control.configuration.solve.models = 0`, `control.solve(...)`. -/
def callSequence : List ClingoCall :=
  [ClingoCall.add "base" [] aspCodeFinal,
    ClingoCall.ground [("base", [])],
    ClingoCall.setModels 0,
    ClingoCall.solve]

/-- Modelled from the spec: the engine interprets a configured model
count of `0` as unbounded enumeration (no limit on the number of
emitted models). -/
def modelLimit (n : Nat) : Option Nat := if n = 0 then none else some n

/-- The verdict printed after `control.solve` returns: the notebook
tests `answer.satisfiable == True`.  The `satisfiable` field of a clingo
solve result is ternary (`True`, `False` or `None`), embedded as
`Option Bool`. -/
def verdict (sat : Option Bool) : String :=
  if sat = some true then "The graph is 3-colorable"
  else "The graph is not 3-colorable"

/-- Modelled from the spec: the satisfiable field of the solve result is
`some true` (Python `True`) exactly when the engine found at least one
stable model of the program it solved. -/
def SatFlagCorrect (P : List Rule) (s : Option Bool) : Prop :=
  s = some true ↔ ∃ I, isStable P I

/-- An enumeration run of the solver on the assembled program: a
duplicate-free list containing exactly the stable models, in some order. -/
def IsRun (L : List (Finset GAtom)) : Prop :=
  L.Nodup ∧ (∀ I ∈ L, isStable program I) ∧
    ∀ I, isStable program I → I ∈ L

/-! ### Theorems -/

theorem mem_stepR {P : List Rule} {I S : Finset GAtom} {a : GAtom} :
    a ∈ stepR P I S ↔ a ∈ S ∨ ∃ r ∈ P, r.head = some a ∧
      (∀ b ∈ r.pos, b ∈ S) ∧ ∀ b ∈ r.neg, b ∉ I := by
  simp only [stepR, Finset.mem_union, List.mem_toFinset, List.mem_filterMap]
  apply or_congr Iff.rfl
  constructor
  · rintro ⟨r, hr, hsome⟩
    by_cases hc : (r.pos.all (fun b => decide (b ∈ S)) &&
        r.neg.all (fun b => !decide (b ∈ I))) = true
    · rw [if_pos hc] at hsome
      rw [Bool.and_eq_true, List.all_eq_true, List.all_eq_true] at hc
      refine ⟨r, hr, hsome, ?_, ?_⟩
      · intro b hb
        simpa using hc.1 b hb
      · intro b hb
        simpa using hc.2 b hb
    · rw [if_neg hc] at hsome
      exact absurd hsome (by simp)
  · rintro ⟨r, hr, hhead, hpos, hneg⟩
    refine ⟨r, hr, ?_⟩
    have hc : (r.pos.all (fun b => decide (b ∈ S)) &&
        r.neg.all (fun b => !decide (b ∈ I))) = true := by
      rw [Bool.and_eq_true, List.all_eq_true, List.all_eq_true]
      exact ⟨fun b hb => by simpa using hpos b hb,
        fun b hb => by simpa using hneg b hb⟩
    rw [if_pos hc, hhead]

theorem stepR_subset {P : List Rule} {I S : Finset GAtom} : S ⊆ stepR P I S :=
  fun _ ha => mem_stepR.2 (Or.inl ha)

theorem iterR_add_of_fix {P : List Rule} {I : Finset GAtom} {n : Nat}
    (hfix : stepR P I (iterR P I n) = iterR P I n) :
    ∀ m, iterR P I (n + m) = iterR P I n := by
  intro m
  induction m with
  | zero => rfl
  | succ k ih => rw [← Nat.add_assoc, iterR, ih, hfix]

theorem mem_vertices (v : V) : v ∈ vertices := by cases v <;> decide

theorem mem_factRules {r : Rule} : r ∈ factRules ↔
    (∃ v ∈ vertices, factVRule v = r) ∨ ∃ e ∈ edges, factERule e = r := by
  simp [factRules]

theorem mem_guessRules {r : Rule} : r ∈ guessRules ↔
    ∃ v ∈ vertices, ∃ c ∈ colors, guessRule v c = r := by
  simp [guessRules]

theorem mem_checkRules {r : Rule} : r ∈ checkRules ↔
    ∃ a ∈ vertices, ∃ b ∈ vertices, ∃ c ∈ colors, checkRule a b c = r := by
  simp [checkRules]

theorem mem_program {r : Rule} : r ∈ program ↔
    r ∈ factRules ∨ r ∈ guessRules ∨ r ∈ checkRules := by
  simp [program, or_assoc]

theorem mem_programNoCheck {r : Rule} : r ∈ programNoCheck ↔
    r ∈ factRules ∨ r ∈ guessRules := by
  simp [programNoCheck]

theorem mem_factAtoms {a : GAtom} : a ∈ factAtoms ↔
    (∃ v, a = GAtom.vertex v) ∨ ∃ e ∈ edges, a = GAtom.edge e.1 e.2 := by
  simp only [factAtoms, Finset.mem_union, List.mem_toFinset, List.mem_map]
  constructor
  · rintro (⟨v, _, rfl⟩ | ⟨e, he, rfl⟩)
    · exact Or.inl ⟨v, rfl⟩
    · exact Or.inr ⟨e, he, rfl⟩
  · rintro (⟨v, rfl⟩ | ⟨e, he, rfl⟩)
    · exact Or.inl ⟨v, mem_vertices v, rfl⟩
    · exact Or.inr ⟨e, he, rfl⟩

theorem survives_iff {I : Finset GAtom} {v : V} {c : Nat} :
    survives I v c = true ↔
      ∀ c' ∈ colors, c' ≠ c → GAtom.color v c' ∉ I := by
  simp only [survives, List.all_eq_true, List.mem_filter, Bool.not_eq_true',
    decide_eq_false_iff_not, bne_iff_ne, ne_eq, and_imp]

theorem guess_neg_iff {I : Finset GAtom} {v : V} {c : Nat} :
    (∀ b ∈ (guessRule v c).neg, b ∉ I) ↔ survives I v c = true := by
  rw [survives_iff]
  simp only [guessRule, List.mem_map, List.mem_filter, bne_iff_ne, ne_eq,
    forall_exists_index, and_imp]
  constructor
  · intro h c' hc' hne
    exact h _ c' hc' hne rfl
  · rintro h b c' hc' hne rfl
    exact h c' hc' hne

theorem mem_survColors {I : Finset GAtom} {a : GAtom} :
    a ∈ survColors I ↔
      ∃ v, ∃ c ∈ colors, survives I v c = true ∧ a = GAtom.color v c := by
  simp only [survColors, List.mem_toFinset, List.mem_flatMap, List.mem_map,
    List.mem_filter]
  constructor
  · rintro ⟨v, _, c, ⟨hc, hs⟩, rfl⟩
    exact ⟨v, c, hc, hs, rfl⟩
  · rintro ⟨v, c, hc, hs, rfl⟩
    exact ⟨v, mem_vertices v, c, ⟨hc, hs⟩, rfl⟩

theorem program_shaped : NotebookShaped program := by
  refine ⟨fun r hr => mem_program.2 (Or.inl hr),
    fun r hr => mem_program.2 (Or.inr (Or.inl hr)), fun r hr => ?_⟩
  rcases mem_program.1 hr with h | h | h
  · exact Or.inl h
  · exact Or.inr (Or.inl h)
  · rcases mem_checkRules.1 h with ⟨a, _, b, _, c, _, rfl⟩
    exact Or.inr (Or.inr rfl)

theorem programNoCheck_shaped : NotebookShaped programNoCheck := by
  refine ⟨fun r hr => mem_programNoCheck.2 (Or.inl hr),
    fun r hr => mem_programNoCheck.2 (Or.inr hr), fun r hr => ?_⟩
  rcases mem_programNoCheck.1 hr with h | h
  · exact Or.inl h
  · exact Or.inr (Or.inl h)

theorem iterR_one_eq {P : List Rule} (hP : NotebookShaped P)
    (I : Finset GAtom) : iterR P I 1 = factAtoms := by
  ext a
  rw [show iterR P I 1 = stepR P I (iterR P I 0) from rfl, mem_stepR]
  constructor
  · rintro (h | ⟨r, hrP, hhead, hpos, -⟩)
    · simp [iterR] at h
    · rcases hP.2.2 r hrP with hf | hg | hn
      · rcases mem_factRules.1 hf with ⟨v, _, rfl⟩ | ⟨e, he, rfl⟩
        · simp only [factVRule] at hhead
          cases hhead
          exact mem_factAtoms.2 (Or.inl ⟨v, rfl⟩)
        · simp only [factERule] at hhead
          cases hhead
          exact mem_factAtoms.2 (Or.inr ⟨e, he, rfl⟩)
      · rcases mem_guessRules.1 hg with ⟨v, _, c, _, rfl⟩
        have hv := hpos (GAtom.vertex v) (by simp [guessRule])
        simp [iterR] at hv
      · rw [hn] at hhead
        cases hhead
  · intro ha
    rcases mem_factAtoms.1 ha with ⟨v, rfl⟩ | ⟨e, he, rfl⟩
    · exact Or.inr ⟨factVRule v,
        hP.1 _ (mem_factRules.2 (Or.inl ⟨v, mem_vertices v, rfl⟩)),
        rfl, by simp [factVRule], by simp [factVRule]⟩
    · exact Or.inr ⟨factERule e,
        hP.1 _ (mem_factRules.2 (Or.inr ⟨e, he, rfl⟩)),
        rfl, by simp [factERule], by simp [factERule]⟩

theorem stepR_factAtoms_union {P : List Rule} (hP : NotebookShaped P)
    (I S : Finset GAtom) (hS : factAtoms ⊆ S) :
    stepR P I S = S ∪ survColors I := by
  ext a
  rw [mem_stepR, Finset.mem_union]
  constructor
  · rintro (h | ⟨r, hrP, hhead, hpos, hneg⟩)
    · exact Or.inl h
    · rcases hP.2.2 r hrP with hf | hg | hn
      · rcases mem_factRules.1 hf with ⟨v, _, rfl⟩ | ⟨e, he, rfl⟩
        · simp only [factVRule] at hhead
          cases hhead
          exact Or.inl (hS (mem_factAtoms.2 (Or.inl ⟨v, rfl⟩)))
        · simp only [factERule] at hhead
          cases hhead
          exact Or.inl (hS (mem_factAtoms.2 (Or.inr ⟨e, he, rfl⟩)))
      · rcases mem_guessRules.1 hg with ⟨v, _, c, hc, rfl⟩
        simp only [guessRule] at hhead
        cases hhead
        exact Or.inr (mem_survColors.2 ⟨v, c, hc, guess_neg_iff.1 hneg, rfl⟩)
      · rw [hn] at hhead
        cases hhead
  · rintro (h | h)
    · exact Or.inl h
    · rcases mem_survColors.1 h with ⟨v, c, hc, hs, rfl⟩
      refine Or.inr ⟨guessRule v c,
        hP.2.1 _ (mem_guessRules.2 ⟨v, mem_vertices v, c, hc, rfl⟩),
        rfl, ?_, guess_neg_iff.2 hs⟩
      intro b hb
      simp only [guessRule, List.mem_singleton] at hb
      subst hb
      exact hS (mem_factAtoms.2 (Or.inl ⟨v, rfl⟩))

theorem closureR_eq {P : List Rule} (hP : NotebookShaped P)
    (I : Finset GAtom) : closureR P I = factAtoms ∪ survColors I := by
  have h2 : iterR P I 2 = factAtoms ∪ survColors I := by
    rw [show iterR P I 2 = stepR P I (iterR P I 1) from rfl,
      iterR_one_eq hP I, stepR_factAtoms_union hP I _ (fun a ha => ha)]
  have hfix : stepR P I (iterR P I 2) = iterR P I 2 := by
    rw [h2, stepR_factAtoms_union hP I _ Finset.subset_union_left,
      Finset.union_assoc, Finset.union_self]
  have h32 := iterR_add_of_fix hfix 30
  rw [closureR, show (32 : Nat) = 2 + 30 from rfl, h32, h2]

theorem color_notin_factAtoms {v : V} {c : Nat} :
    GAtom.color v c ∉ factAtoms := by
  intro h
  rcases mem_factAtoms.1 h with ⟨w, hw⟩ | ⟨e, -, hw⟩ <;> cases hw

theorem color_mem_survColors {I : Finset GAtom} {v : V} {c : Nat} :
    GAtom.color v c ∈ survColors I ↔ c ∈ colors ∧ survives I v c = true := by
  rw [mem_survColors]
  constructor
  · rintro ⟨v', c', hc', hs', heq⟩
    cases heq
    exact ⟨hc', hs'⟩
  · rintro ⟨hc, hs⟩
    exact ⟨v, c, hc, hs, rfl⟩

theorem stable_mem_color {P : List Rule} (hP : NotebookShaped P)
    {I : Finset GAtom} (hfix : I = closureR P I) {v : V} {c : Nat} :
    GAtom.color v c ∈ I ↔ c ∈ colors ∧ survives I v c = true := by
  conv_lhs => rw [hfix, closureR_eq hP]
  rw [Finset.mem_union, color_mem_survColors]
  simp [color_notin_factAtoms]

theorem stable_mem_vertex {P : List Rule} (hP : NotebookShaped P)
    {I : Finset GAtom} (hfix : I = closureR P I) (v : V) :
    GAtom.vertex v ∈ I := by
  rw [hfix, closureR_eq hP, Finset.mem_union]
  exact Or.inl (mem_factAtoms.2 (Or.inl ⟨v, rfl⟩))

theorem stable_mem_edge {P : List Rule} (hP : NotebookShaped P)
    {I : Finset GAtom} (hfix : I = closureR P I) {a b : V} :
    GAtom.edge a b ∈ I ↔ (a, b) ∈ edges := by
  conv_lhs => rw [hfix, closureR_eq hP]
  rw [Finset.mem_union, mem_survColors]
  constructor
  · rintro (h | ⟨v, c, -, -, heq⟩)
    · rcases mem_factAtoms.1 h with ⟨w, hw⟩ | ⟨e, he, hw⟩
      · cases hw
      · cases hw
        exact he
    · cases heq
  · intro h
    exact Or.inl (mem_factAtoms.2 (Or.inr ⟨(a, b), h, rfl⟩))

theorem stable_color_one {P : List Rule} (hP : NotebookShaped P)
    {I : Finset GAtom} (hfix : I = closureR P I) (v : V) :
    GAtom.color v 1 ∈ I ↔
      GAtom.color v 2 ∉ I ∧ GAtom.color v 3 ∉ I := by
  rw [stable_mem_color hP hfix, survives_iff]
  constructor
  · rintro ⟨-, hs⟩
    exact ⟨hs 2 (by decide) (by decide), hs 3 (by decide) (by decide)⟩
  · rintro ⟨h2, h3⟩
    refine ⟨by decide, fun c' hc' hne => ?_⟩
    simp only [colors, List.mem_cons, List.mem_singleton] at hc'
    rcases hc' with rfl | rfl | (rfl | h)
    · exact absurd rfl hne
    · exact h2
    · exact h3
    · cases h

theorem stable_color_two {P : List Rule} (hP : NotebookShaped P)
    {I : Finset GAtom} (hfix : I = closureR P I) (v : V) :
    GAtom.color v 2 ∈ I ↔
      GAtom.color v 1 ∉ I ∧ GAtom.color v 3 ∉ I := by
  rw [stable_mem_color hP hfix, survives_iff]
  constructor
  · rintro ⟨-, hs⟩
    exact ⟨hs 1 (by decide) (by decide), hs 3 (by decide) (by decide)⟩
  · rintro ⟨h1, h3⟩
    refine ⟨by decide, fun c' hc' hne => ?_⟩
    simp only [colors, List.mem_cons, List.mem_singleton] at hc'
    rcases hc' with rfl | rfl | (rfl | h)
    · exact h1
    · exact absurd rfl hne
    · exact h3
    · cases h

theorem coloringOf_spec {P : List Rule} (hP : NotebookShaped P)
    {I : Finset GAtom} (hfix : I = closureR P I) (v : V) :
    GAtom.color v (colorVal (coloringOf I v)) ∈ I ∧
      ∀ c', GAtom.color v c' ∈ I → c' = colorVal (coloringOf I v) := by
  have hmem : ∀ c, GAtom.color v c ∈ I → c ∈ colors :=
    fun c hc => ((stable_mem_color hP hfix).1 hc).1
  have e1 := stable_color_one hP hfix v
  have e2 := stable_color_two hP hfix v
  by_cases hc1 : GAtom.color v 1 ∈ I
  · have hno := e1.1 hc1
    refine ⟨by simp [coloringOf, hc1, colorVal], fun c' hc' => ?_⟩
    simp only [coloringOf, if_pos hc1, colorVal]
    have := hmem c' hc'
    simp only [colors, List.mem_cons, List.mem_singleton] at this
    rcases this with rfl | rfl | (rfl | h)
    · rfl
    · exact absurd hc' hno.1
    · exact absurd hc' hno.2
    · cases h
  · by_cases hc2 : GAtom.color v 2 ∈ I
    · have hno := e2.1 hc2
      refine ⟨by simp [coloringOf, hc1, hc2, colorVal], fun c' hc' => ?_⟩
      simp only [coloringOf, if_neg hc1, if_pos hc2, colorVal]
      have := hmem c' hc'
      simp only [colors, List.mem_cons, List.mem_singleton] at this
      rcases this with rfl | rfl | (rfl | h)
      · exact absurd hc' hno.1
      · rfl
      · exact absurd hc' hno.2
      · cases h
    · by_cases hc3 : GAtom.color v 3 ∈ I
      · refine ⟨by simpa [coloringOf, hc1, hc2, colorVal] using hc3,
          fun c' hc' => ?_⟩
        simp only [coloringOf, if_neg hc1, if_neg hc2, colorVal]
        have := hmem c' hc'
        simp only [colors, List.mem_cons, List.mem_singleton] at this
        rcases this with rfl | rfl | (rfl | h)
        · exact absurd hc' hc1
        · exact absurd hc' hc2
        · rfl
        · cases h
      · exact absurd (e1.2 ⟨hc2, hc3⟩) hc1

theorem colorVal_mem_colors (c : Fin 3) : colorVal c ∈ colors := by
  have := c.isLt
  simp only [colors, colorVal, List.mem_cons, List.mem_singleton]
  omega

theorem colorVal_injective {a b : Fin 3} (h : colorVal a = colorVal b) :
    a = b := by
  simp only [colorVal, Nat.add_right_cancel_iff] at h
  exact Fin.ext h

theorem vertex_mem_interpOf (μ : Coloring) (v : V) :
    GAtom.vertex v ∈ interpOf μ :=
  Finset.mem_union_left _ (mem_factAtoms.2 (Or.inl ⟨v, rfl⟩))

theorem edge_mem_interpOf {μ : Coloring} {a b : V} :
    GAtom.edge a b ∈ interpOf μ ↔ (a, b) ∈ edges := by
  rw [interpOf, Finset.mem_union]
  constructor
  · rintro (h | h)
    · rcases mem_factAtoms.1 h with ⟨w, hw⟩ | ⟨e, he, hw⟩
      · cases hw
      · cases hw
        exact he
    · rw [List.mem_toFinset, List.mem_map] at h
      rcases h with ⟨v, -, hv⟩
      cases hv
  · intro h
    exact Or.inl (mem_factAtoms.2 (Or.inr ⟨(a, b), h, rfl⟩))

theorem color_mem_interpOf {μ : Coloring} {v : V} {c : Nat} :
    GAtom.color v c ∈ interpOf μ ↔ c = colorVal (μ v) := by
  rw [interpOf, Finset.mem_union]
  constructor
  · rintro (h | h)
    · exact absurd h color_notin_factAtoms
    · rw [List.mem_toFinset, List.mem_map] at h
      rcases h with ⟨w, -, hw⟩
      cases hw
      rfl
  · rintro rfl
    refine Or.inr ?_
    rw [List.mem_toFinset, List.mem_map]
    exact ⟨v, mem_vertices v, rfl⟩

theorem survives_interpOf {μ : Coloring} {v : V} {c : Nat} :
    survives (interpOf μ) v c = true ↔ c = colorVal (μ v) := by
  rw [survives_iff]
  constructor
  · intro h
    by_contra hne
    exact h (colorVal (μ v)) (colorVal_mem_colors (μ v))
      (fun heq => hne heq.symm) (color_mem_interpOf.2 rfl)
  · rintro rfl c' hc' hne hmem
    exact hne (color_mem_interpOf.1 hmem)

theorem survColors_interpOf (μ : Coloring) :
    survColors (interpOf μ) =
      (vertices.map (fun v => GAtom.color v (colorVal (μ v)))).toFinset := by
  ext a
  rw [mem_survColors, List.mem_toFinset, List.mem_map]
  constructor
  · rintro ⟨v, c, -, hs, rfl⟩
    rw [survives_interpOf] at hs
    exact ⟨v, mem_vertices v, by rw [hs]⟩
  · rintro ⟨v, -, rfl⟩
    exact ⟨v, colorVal (μ v), colorVal_mem_colors (μ v),
      survives_interpOf.2 rfl, rfl⟩

theorem closureR_interpOf {P : List Rule} (hP : NotebookShaped P)
    (μ : Coloring) : closureR P (interpOf μ) = interpOf μ := by
  rw [closureR_eq hP, survColors_interpOf, interpOf]

theorem fix_eq_interpOf {P : List Rule} (hP : NotebookShaped P)
    {I : Finset GAtom} (hfix : I = closureR P I) :
    I = interpOf (coloringOf I) := by
  ext a
  cases a with
  | vertex v =>
    simp only [stable_mem_vertex hP hfix v, vertex_mem_interpOf]
  | edge a b =>
    rw [stable_mem_edge hP hfix, edge_mem_interpOf]
  | color v c =>
    rw [color_mem_interpOf]
    constructor
    · exact (coloringOf_spec hP hfix v).2 c
    · rintro rfl
      exact (coloringOf_spec hP hfix v).1

theorem stable_program_of_proper {μ : Coloring} (hμ : proper μ) :
    isStable program (interpOf μ) := by
  refine ⟨(closureR_interpOf program_shaped μ).symm, fun r hr => ?_⟩
  rcases mem_program.1 hr with h | h | h
  · rcases mem_factRules.1 h with ⟨v, -, rfl⟩ | ⟨e, -, rfl⟩ <;>
      exact fun hn => absurd hn (by simp [factVRule, factERule])
  · rcases mem_guessRules.1 h with ⟨v, -, c, -, rfl⟩
    exact fun hn => absurd hn (by simp [guessRule])
  · rcases mem_checkRules.1 h with ⟨a, -, b, -, c, -, rfl⟩
    rintro - ⟨hpos, -⟩
    have he := hpos (GAtom.edge a b) (by simp [checkRule])
    have ha := hpos (GAtom.color a c) (by simp [checkRule])
    have hb := hpos (GAtom.color b c) (by simp [checkRule])
    rw [edge_mem_interpOf] at he
    rw [color_mem_interpOf] at ha hb
    exact hμ (a, b) he (colorVal_injective (ha ▸ hb))

theorem proper_of_stable {I : Finset GAtom} (h : isStable program I) :
    proper (coloringOf I) := by
  obtain ⟨hfix, hcon⟩ := h
  rintro ⟨a, b⟩ he hab
  have hc := hcon (checkRule a b (colorVal (coloringOf I a)))
    (mem_program.2 (Or.inr (Or.inr (mem_checkRules.2
      ⟨a, mem_vertices a, b, mem_vertices b, colorVal (coloringOf I a),
        colorVal_mem_colors _, rfl⟩))))
  refine hc rfl ⟨fun x hx => ?_, by simp [checkRule]⟩
  simp only [checkRule, List.mem_cons, List.mem_singleton] at hx
  rcases hx with rfl | rfl | (rfl | hx)
  · exact (stable_mem_edge program_shaped hfix).2 he
  · exact (coloringOf_spec program_shaped hfix a).1
  · rw [hab]
    exact (coloringOf_spec program_shaped hfix b).1
  · cases hx

/-- The stable models of the assembled program are exactly the
interpretations induced by the proper 3-colorings of the graph. -/
theorem stable_program_iff {I : Finset GAtom} :
    isStable program I ↔ ∃ μ, proper μ ∧ I = interpOf μ := by
  constructor
  · intro h
    exact ⟨coloringOf I, proper_of_stable h, fix_eq_interpOf program_shaped h.1⟩
  · rintro ⟨μ, hμ, rfl⟩
    exact stable_program_of_proper hμ

/-- Every coloring, proper or not, induces a stable model of the
check-free program. -/
theorem stable_noCheck (μ : Coloring) : isStable programNoCheck (interpOf μ) := by
  refine ⟨(closureR_interpOf programNoCheck_shaped μ).symm, fun r hr => ?_⟩
  rcases mem_programNoCheck.1 hr with h | h
  · rcases mem_factRules.1 h with ⟨v, -, rfl⟩ | ⟨e, -, rfl⟩ <;>
      exact fun hn => absurd hn (by simp [factVRule, factERule])
  · rcases mem_guessRules.1 h with ⟨v, -, c, -, rfl⟩
    exact fun hn => absurd hn (by simp [guessRule])

theorem properColorings_proper : ∀ μ ∈ properColorings, proper μ := by decide

theorem proper_mem_properColorings :
    ∀ μ : Coloring, proper μ → μ ∈ properColorings := by decide

theorem stableList_nodup : stableList.Nodup := by decide

theorem stableList_shown_nodup : (stableList.map shown).Nodup := by decide

theorem proper_v4_eq_v1 : ∀ μ : Coloring, proper μ → μ V.v4 = μ V.v1 := by
  decide

theorem stable_mem_stableList {I : Finset GAtom} :
    isStable program I ↔ I ∈ stableList := by
  rw [stable_program_iff]
  constructor
  · rintro ⟨μ, hμ, rfl⟩
    exact List.mem_map_of_mem interpOf (proper_mem_properColorings μ hμ)
  · intro h
    rcases List.mem_map.1 h with ⟨μ, hμ, rfl⟩
    exact ⟨μ, properColorings_proper μ hμ, rfl⟩

theorem isRun_stableList : IsRun stableList :=
  ⟨stableList_nodup, fun _ h => stable_mem_stableList.2 h,
    fun _ h => stable_mem_stableList.1 h⟩

theorem isRun_stableList_reverse : IsRun stableList.reverse :=
  ⟨List.nodup_reverse.2 stableList_nodup,
    fun _ h => stable_mem_stableList.2 (List.mem_reverse.1 h),
    fun _ h => List.mem_reverse.2 (stable_mem_stableList.1 h)⟩

theorem satFlag_some_true : SatFlagCorrect program (some true) :=
  ⟨fun _ => ⟨interpOf (mkColoring 0 1 2 0),
      stable_program_of_proper (by decide)⟩,
    fun _ => rfl⟩

/-- C1: for every model emitted by the solve call on the fixed example
graph, and for every edge `(a,b)` of that graph, the color atom assigned
to `a` has a different color value than the color atom assigned to `b`. -/
theorem claim_c1 (I : Finset GAtom) (h : isStable program I) :
    ∀ e ∈ edges, ∀ c c' : Nat,
      GAtom.color e.1 c ∈ I → GAtom.color e.2 c' ∈ I → c ≠ c' := by
  rcases stable_program_iff.1 h with ⟨μ, hμ, rfl⟩
  rintro e he c c' hc hc' rfl
  rw [color_mem_interpOf] at hc hc'
  exact hμ e he (colorVal_injective (hc.symm.trans hc'))

theorem claim_c1_witness :
    isStable program (interpOf (mkColoring 0 1 2 0)) ∧ (1 : Nat) ≠ 2 :=
  ⟨stable_program_of_proper (by decide),
    claim_c1 (interpOf (mkColoring 0 1 2 0))
      (stable_program_of_proper (by decide)) (V.v1, V.v2) (by decide) 1 2
      (by decide) (by decide)⟩

/-- C2: in every model emitted by the solve call, every vertex is
assigned exactly one color, and that color is an element of `{1,2,3}`:
for each vertex `v` there is exactly one `c` with `color(v,c)` in the
model. -/
theorem claim_c2 (I : Finset GAtom) (h : isStable program I) (v : V) :
    ∃ c, c ∈ colors ∧ GAtom.color v c ∈ I ∧
      ∀ c', GAtom.color v c' ∈ I → c' = c := by
  rcases stable_program_iff.1 h with ⟨μ, hμ, rfl⟩
  exact ⟨colorVal (μ v), colorVal_mem_colors (μ v), color_mem_interpOf.2 rfl,
    fun c' hc' => color_mem_interpOf.1 hc'⟩

theorem claim_c2_witness :
    isStable program (interpOf (mkColoring 0 1 2 0)) ∧
      ∃ c, c ∈ colors ∧
        GAtom.color V.v1 c ∈ interpOf (mkColoring 0 1 2 0) ∧
        ∀ c', GAtom.color V.v1 c' ∈ interpOf (mkColoring 0 1 2 0) → c' = c :=
  ⟨stable_program_of_proper (by decide),
    claim_c2 (interpOf (mkColoring 0 1 2 0))
      (stable_program_of_proper (by decide)) V.v1⟩

/-- C3: the solve call on the complete assembled program emits exactly 6
distinct models: there is a duplicate-free 6-element list containing
exactly the stable models, and the shown-atom sets of its members are
pairwise distinct. -/
theorem claim_c3 : ∃ L : List (Finset GAtom), L.length = 6 ∧ L.Nodup ∧
    (∀ I, isStable program I ↔ I ∈ L) ∧ (L.map shown).Nodup :=
  ⟨stableList, rfl, stableList_nodup, fun _ => stable_mem_stableList,
    stableList_shown_nodup⟩

/-- C4 (amended): the result reporter prints exactly one of the two fixed
messages `"The graph is 3-colorable"` or `"The graph is not 3-colorable"`,
and whenever the satisfiable field correctly reports that at least one
model was found — as on the fixed example graph — the printed verdict is
`"The graph is 3-colorable"`. -/
theorem claim_c4 : (∀ s : Option Bool,
      verdict s = "The graph is 3-colorable" ∨
      verdict s = "The graph is not 3-colorable") ∧
    ∀ s : Option Bool, SatFlagCorrect program s →
      verdict s = "The graph is 3-colorable" := by
  refine ⟨by decide, fun s hs => ?_⟩
  rw [hs.2 ⟨interpOf (mkColoring 0 1 2 0),
    stable_program_of_proper (by decide)⟩]
  rfl

theorem claim_c4_witness :
    SatFlagCorrect program (some true) ∧
      verdict (some true) = "The graph is 3-colorable" :=
  ⟨satFlag_some_true, claim_c4.2 (some true) satFlag_some_true⟩

/-- C4 as stated is false: the notebook prints the capitalized messages
`"The graph is 3-colorable"` / `"The graph is not 3-colorable"`, so on a
satisfiable result the printed verdict is neither of the two lowercase
messages quoted by the claim. -/
theorem claim_c4_counterexample :
    ¬(verdict (some true) = "the graph is 3-colorable" ∨
      verdict (some true) = "the graph is not 3-colorable") := by decide

/-- C5: `asp_code` starts as the empty string and is only ever extended by
appending; the final program text submitted to the solver equals the
concatenation, in this fixed order, of the fact fragment (4 vertex facts,
5 edge facts), the guess fragment (3 rules), the check fragment (one
empty-headed constraint) and the projection fragment (one `#show`
directive). -/
theorem claim_c5 :
    aspCode0 = "" ∧
    aspCode1 = aspCode0 ++ factFragment ∧
    aspCode2 = aspCode1 ++ guessFragment ∧
    aspCode3 = aspCode2 ++ checkFragment ∧
    aspCodeFinal = aspCode3 ++ showFragment ∧
    aspCodeFinal =
      factFragment ++ guessFragment ++ checkFragment ++ showFragment ∧
    ClingoCall.add "base" [] aspCodeFinal ∈ callSequence ∧
    occurrences "vertex(" factFragment = 4 ∧
    occurrences "edge(" factFragment = 5 ∧
    occurrences ":-" guessFragment = 3 ∧
    occurrences ":-" checkFragment = 1 ∧
    occurrences "#show" showFragment = 1 := by
  refine ⟨rfl, rfl, rfl, rfl, rfl, by decide, by decide, ?_, ?_, ?_, ?_, ?_⟩ <;>
    decide

/-- C6 (amended): before invoking solve, the wrapper sets the model-count
limit to 0, which the engine interprets as unbounded; the program is
loaded under the named section `"base"` with no parameters and exactly
that section is grounded (in the code, the load and ground calls precede
the model-count configuration). -/
theorem claim_c6 :
    callSequence.indexOf (ClingoCall.setModels 0) <
      callSequence.indexOf ClingoCall.solve ∧
    ClingoCall.add "base" [] aspCodeFinal ∈ callSequence ∧
    callSequence.indexOf (ClingoCall.add "base" [] aspCodeFinal) <
      callSequence.indexOf (ClingoCall.ground [("base", [])]) ∧
    callSequence.filter (fun c => isGroundCall c) =
      [ClingoCall.ground [("base", [])]] ∧
    modelLimit 0 = none := by decide

/-- C6 as stated is false in its ordering: it has the wrapper configure
the model count and "then" load and ground, but in the code the ground
call (index 1) precedes the model-count configuration (index 2), which
in turn does not precede the add call (index 0). -/
theorem claim_c6_counterexample :
    callSequence.indexOf (ClingoCall.ground [("base", [])]) <
      callSequence.indexOf (ClingoCall.setModels 0) ∧
    ¬(callSequence.indexOf (ClingoCall.setModels 0) <
      callSequence.indexOf (ClingoCall.add "base" [] aspCodeFinal)) := by
  decide

/-- C7: any two enumeration runs of the identical assembled program
against fresh solver contexts emit the same set of 6 models, compared as
sets, even when the enumeration orders differ. -/
theorem claim_c7 (L1 L2 : List (Finset GAtom))
    (h1 : IsRun L1) (h2 : IsRun L2) :
    L1.toFinset = L2.toFinset ∧ L1.length = 6 := by
  have hmem : ∀ L, IsRun L → ∀ I, I ∈ L ↔ I ∈ stableList := by
    intro L hL I
    exact ⟨fun h => stable_mem_stableList.1 (hL.2.1 I h),
      fun h => hL.2.2 I (stable_mem_stableList.2 h)⟩
  constructor
  · ext I
    rw [List.mem_toFinset, List.mem_toFinset, hmem L1 h1 I, hmem L2 h2 I]
  · have hfs : L1.toFinset = stableList.toFinset := by
      ext I
      rw [List.mem_toFinset, List.mem_toFinset, hmem L1 h1 I]
    calc L1.length = L1.toFinset.card := (List.toFinset_card_of_nodup h1.1).symm
    _ = stableList.toFinset.card := by rw [hfs]
    _ = stableList.length := List.toFinset_card_of_nodup stableList_nodup
    _ = 6 := rfl

theorem claim_c7_witness :
    IsRun stableList ∧ IsRun stableList.reverse ∧
      stableList ≠ stableList.reverse ∧
      stableList.toFinset = stableList.reverse.toFinset ∧
      stableList.length = 6 :=
  ⟨isRun_stableList, isRun_stableList_reverse, by decide,
    (claim_c7 stableList stableList.reverse isRun_stableList
      isRun_stableList_reverse).1,
    (claim_c7 stableList stableList.reverse isRun_stableList
      isRun_stableList_reverse).2⟩

/-- C8: if the check fragment is omitted while the fact, guess and
projection fragments are kept, then at least one emitted model violates
the different-colors-across-an-edge property: some model contains
`color(a,c)` and `color(b,c)` for some edge `(a,b)`. -/
theorem claim_c8 : ∃ I, isStable programNoCheck I ∧
    ∃ e ∈ edges, ∃ c, GAtom.color e.1 c ∈ I ∧ GAtom.color e.2 c ∈ I :=
  ⟨interpOf (mkColoring 0 0 0 0), stable_noCheck (mkColoring 0 0 0 0),
    (V.v1, V.v2), by decide, 1, by decide, by decide⟩

/-- C9: the verdict branch tests the satisfiable field for equality with
`True`: the 3-colorable message is printed exactly when the field is
`some true`, and every other value — including the `none` (unknown)
outcome — produces the not-3-colorable message, identically to a
proven-unsatisfiable result. -/
theorem claim_c9 : (∀ s : Option Bool,
      verdict s = "The graph is 3-colorable" ↔ s = some true) ∧
    verdict none = "The graph is not 3-colorable" ∧
    verdict none = verdict (some false) := by decide

/-- C10: in every model emitted for the fixed example graph the color
assigned to `v4` equals the color assigned to `v1` (every proper
3-coloring is a permutation of the three colors over the triangle
`v1, v2, v3` with `v4` copying `v1`), and accordingly there are exactly
`3! = 6` models. -/
theorem claim_c10 : (∀ I, isStable program I → ∀ c : Nat,
      (GAtom.color V.v4 c ∈ I ↔ GAtom.color V.v1 c ∈ I)) ∧
    ∃ L : List (Finset GAtom), L.length = 6 ∧ L.Nodup ∧
      ∀ I, isStable program I ↔ I ∈ L := by
  constructor
  · intro I h c
    rcases stable_program_iff.1 h with ⟨μ, hμ, rfl⟩
    rw [color_mem_interpOf, color_mem_interpOf, proper_v4_eq_v1 μ hμ]
  · exact ⟨stableList, rfl, stableList_nodup, fun _ => stable_mem_stableList⟩

theorem claim_c10_witness :
    isStable program (interpOf (mkColoring 0 1 2 0)) ∧
      (GAtom.color V.v4 1 ∈ interpOf (mkColoring 0 1 2 0) ↔
        GAtom.color V.v1 1 ∈ interpOf (mkColoring 0 1 2 0)) :=
  ⟨stable_program_of_proper (by decide),
    claim_c10.1 (interpOf (mkColoring 0 1 2 0))
      (stable_program_of_proper (by decide)) 1⟩

end ThreeCol
